import Mathlib

/-!
Verification of the reactive-computation graph library (`src/src/lib.rs`).

The Rust code stores cells in two `HashMap<CellId, Box<...>>` collections, one
for input cells and one for compute cells.  Fresh identifiers are always the
current size of the owning map (`InputCellId(self.inputs.len())`,
`ComputeCellId(self.compute.len())`) and cells are never removed, so the key
sets are exactly `0 .. len-1`; we therefore model each collection as a `List`
indexed by the numeric identifier.  The value type `T` (Rust: `Copy +
PartialEq`) is a type parameter with decidable equality.  Callback closures
are `FnMut(T)` side-effecting values; we model the observable behaviour of a
propagation round as a trace of `Event`s, one per callback invocation,
recording the cell, the callback identity and the value passed.

`update_compute_cell_value` in the source is recursive (it re-updates every
child after recomputing a cell).  We model that recursion with an explicit
worklist — the list of recursive calls still pending, head first — which
visits cells, fires callbacks and threads state in exactly the same order as
the Rust recursion, plus a fuel parameter that makes the recursion structural.
`set_value`'s loop over the mutated input's children seeds the worklist.
-/

/-- Rust `CellId`: a tagged identifier, `Input(InputCellId)` or
`Compute(ComputeCellId)`, each wrapping a `usize`. -/
inductive CellId where
  | input : Nat → CellId
  | compute : Nat → CellId
deriving DecidableEq, Repr

/-- Rust `RemoveCallbackError`. -/
inductive RemoveCallbackError where
  | NonexistentCell
  | NonexistentCallback
deriving DecidableEq, Repr

/-- Rust `InputCell<T>`: current value and the list of dependents
(`children`), in the order the edges were pushed. -/
structure InputCell (T : Type) where
  val : T
  children : List CellId

/-- Rust `ComputeCell<'a, T>`: current value, dependents (`children`),
dependencies (`parents`) in declaration order, the registered callbacks
(we keep only their identifiers; invocation is recorded in the trace), and
the recomputation function. -/
structure ComputeCell (T : Type) where
  val : T
  children : List CellId
  parents : List CellId
  callbacks : List Nat
  func : List T → T

/-- Rust `Reactor<'a, T>`: the two cell stores, modelled as lists indexed by
the numeric part of the identifier (see the header comment). -/
structure Reactor (T : Type) where
  inputs : List (InputCell T)
  compute : List (ComputeCell T)

/-- One callback invocation observed during a propagation round: callback
`cb` registered on compute cell `cell` was called with value `val`. -/
structure Event (T : Type) where
  cell : Nat
  cb : Nat
  val : T
deriving DecidableEq, Repr

set_option linter.unusedSectionVars false

variable {T : Type} [DecidableEq T]

/-- Rust `Reactor::new`. -/
def Reactor.new (T : Type) : Reactor T := ⟨[], []⟩

/-- Rust `Reactor::value`: look the identifier up in the collection matching
its tag. -/
def Reactor.value (r : Reactor T) (id : CellId) : Option T :=
  match id with
  | .compute i => (r.compute[i]?).map (·.val)
  | .input i => (r.inputs[i]?).map (·.val)

/-- Rust `Reactor::create_input`: the fresh identifier is the current number
of input cells; the new cell has no dependents yet. -/
def Reactor.create_input (r : Reactor T) (initial : T) : Reactor T × Nat :=
  ({ r with inputs := r.inputs ++ [⟨initial, []⟩] }, r.inputs.length)

/-- The validation/collection loop at the start of Rust `create_compute`:
walk the dependencies in order; for each, if it does not resolve in the
matching collection return it as the error, otherwise record its current
value. -/
def Reactor.collectValues (r : Reactor T) : List CellId → Except CellId (List T)
  | [] => .ok []
  | d :: ds =>
    match r.value d with
    | none => .error d
    | some v =>
      match r.collectValues ds with
      | .error e => .error e
      | .ok vs => .ok (v :: vs)

/-- The body of the second loop of Rust `create_compute`: push `child` onto
the dependent (`children`) list of cell `d`.  In the source the lookup is
`get_mut(..).unwrap()`; it is only ever reached after `d` was validated, so
the `none` branch is dead code and leaves the reactor unchanged. -/
def Reactor.addChild (r : Reactor T) (d : CellId) (child : CellId) : Reactor T :=
  match d with
  | .input k =>
    match r.inputs[k]? with
    | some c => { r with inputs := r.inputs.set k { c with children := c.children ++ [child] } }
    | none => r
  | .compute k =>
    match r.compute[k]? with
    | some c => { r with compute := r.compute.set k { c with children := c.children ++ [child] } }
    | none => r

/-- Rust `Reactor::create_compute`.  Validate and collect the dependency
values in order; on the first unresolved dependency fail with it (the
reactor is untouched: the loop before the first `return Err` only reads).
On success insert the new cell — value `f values`, no dependents, parents
as given, no callbacks — under the fresh identifier `compute.len()`, then
push the new identifier onto every dependency's `children` list. -/
def Reactor.create_compute (r : Reactor T) (deps : List CellId) (f : List T → T) :
    Reactor T × Except CellId Nat :=
  match r.collectValues deps with
  | .error d => (r, .error d)
  | .ok values =>
    let id := r.compute.length
    let r1 : Reactor T := { r with compute := r.compute ++ [⟨f values, [], deps, [], f⟩] }
    let r2 := deps.foldl (fun acc d => acc.addChild d (.compute id)) r1
    (r2, .ok id)

/-- The `parent_values` collection at the start of Rust
`update_compute_cell_value`: `parents.iter().map(|par| self.value(*par).unwrap()).collect()`.
The `unwrap` panics when a parent does not resolve; `none` models that. -/
def Reactor.parentValues (r : Reactor T) : List CellId → Option (List T)
  | [] => some []
  | p :: ps =>
    match r.value p with
    | none => none
    | some v =>
      match r.parentValues ps with
      | none => none
      | some vs => some (v :: vs)

/-- Rust `Reactor::update_compute_cell_value`, defunctionalised: the list
argument holds the pending recursive calls, head first, so cells are
visited in exactly the order of the Rust recursion.  For the head cell:
gather the parents' current values, apply the cell's function; if the
result differs from the stored value, store it and fire every registered
callback with it (one `Event` each); in either case continue with the
cell's children prepended to the remaining worklist.  `none` models a
panic (an `unwrap` failure: the identifier does not resolve to a compute
cell, or a parent does not resolve) or fuel exhaustion. -/
def Reactor.update_compute_cell_value :
    Nat → Reactor T → List CellId → Option (Reactor T × List (Event T))
  | 0, r, wl => if wl.isEmpty then some (r, []) else none
  | fuel+1, r, wl =>
    match wl with
    | [] => some (r, [])
    | id :: rest =>
      match id with
      | .input _ => none
      | .compute i =>
        match r.compute[i]? with
        | none => none
        | some cell =>
          match r.parentValues cell.parents with
          | none => none
          | some pv =>
            let newVal := cell.func pv
            if newVal = cell.val then
              Reactor.update_compute_cell_value fuel r (cell.children ++ rest)
            else
              let r1 : Reactor T :=
                { r with compute := r.compute.set i { cell with val := newVal } }
              match Reactor.update_compute_cell_value fuel r1 (cell.children ++ rest) with
              | none => none
              | some (r2, tr) =>
                some (r2, cell.callbacks.map (fun cb => ⟨i, cb, newVal⟩) ++ tr)

/-- Rust `Reactor::set_value`.  If the input identifier does not resolve,
return `false` with the reactor untouched and no callback fired.  Otherwise
store the new value (unconditionally, even if equal to the old one), then
run the propagation over the input's children and return `true`.  The
result also carries the trace of callback invocations of the round. -/
def Reactor.set_value (fuel : Nat) (r : Reactor T) (i : Nat) (v : T) :
    Option (Reactor T × List (Event T) × Bool) :=
  match r.inputs[i]? with
  | none => some (r, [], false)
  | some c =>
    let r1 : Reactor T := { r with inputs := r.inputs.set i { c with val := v } }
    match Reactor.update_compute_cell_value fuel r1 c.children with
    | none => none
    | some (r2, tr) => some (r2, tr, true)

/-- Outcome of calling a Rust function whose body may be `todo!()`: either
it panics before returning, or it returns a value. -/
inductive Diverge (α : Type) where
  | todo
  | returns (a : α)

/-- Rust `Reactor::add_callback`: the body in the source is `todo!()`,
which unconditionally panics; no callback is ever stored and no identifier
returned. -/
def Reactor.add_callback (_r : Reactor T) (_id : Nat) : Diverge (Reactor T × Nat) :=
  .todo

/-- Rust `Reactor::remove_callback`: the body in the source is
`todo!("Remove the callback ...")`, which unconditionally panics. -/
def Reactor.remove_callback (_r : Reactor T) (_cell _cb : Nat) :
    Diverge (Except RemoveCallbackError Unit) :=
  .todo

/-- Modelled from the spec: the callback registry stores a callback identity
scoped to an existing compute cell (spec section 4.3, `add_callback`).  The
source's `add_callback` body is `todo!()`, so registration is modelled here
directly on the registry in order to exercise the callback-firing logic of
`update_compute_cell_value`, which is in the source. -/
def Reactor.withCallback (r : Reactor T) (i : Nat) (cb : Nat) : Reactor T :=
  match r.compute[i]? with
  | some c => { r with compute := r.compute.set i { c with callbacks := c.callbacks ++ [cb] } }
  | none => r

/-- The diamond graph of the spec's test scenario: input `A = 1` (input id
0); compute `B = A + 1` (compute id 0); compute `C = A + 1` (compute id 1);
compute `D = B + C` (compute id 2). -/
def diamond0 : Reactor Int :=
  let rA := ((Reactor.new Int).create_input 1).1
  let rB := (rA.create_compute [.input 0] (fun l => l.sum + 1)).1
  let rC := (rB.create_compute [.input 0] (fun l => l.sum + 1)).1
  (rC.create_compute [.compute 0, .compute 1] (fun l => l.sum)).1

/-- The diamond graph with one callback (identity 0) registered on `D`. -/
def diamondCb : Reactor Int := diamond0.withCallback 2 0

/-- A one-input reactor used to instantiate theorems: `create_input 5` on a
fresh reactor. -/
def tinyR : Reactor Int := ((Reactor.new Int).create_input 5).1

/-- The state of `tinyR` after `set_value` writes `7` into input 0. -/
def tinyR7 : Reactor Int := ⟨[⟨7, []⟩], []⟩

/-- The dependent (`children`) list of a cell, empty when the identifier
does not resolve. -/
def Reactor.childrenOf (r : Reactor T) (p : CellId) : List CellId :=
  match p with
  | .input k => ((r.inputs[k]?).map (·.children)).getD []
  | .compute k => ((r.compute[k]?).map (·.children)).getD []

/-- Structural well-formedness of a reactor, an invariant of every state
reachable through the public constructors and mutators: dependent edges
point to existing compute cells created strictly later than the cell
holding the edge; dependencies of a compute cell are existing cells created
strictly earlier; and every dependency edge has its mirror dependent
edge. -/
structure Wf (r : Reactor T) : Prop where
  inputChildren : ∀ (k : Nat) (c : InputCell T), r.inputs[k]? = some c →
    ∀ x ∈ c.children, ∃ j, x = CellId.compute j ∧ j < r.compute.length
  computeChildren : ∀ (i : Nat) (c : ComputeCell T), r.compute[i]? = some c →
    ∀ x ∈ c.children, ∃ j, x = CellId.compute j ∧ i < j ∧ j < r.compute.length
  parentsOk : ∀ (i : Nat) (c : ComputeCell T), r.compute[i]? = some c → ∀ p ∈ c.parents,
    (match p with | .input k => k < r.inputs.length | .compute k => k < i)
  mirror : ∀ (i : Nat) (c : ComputeCell T), r.compute[i]? = some c → ∀ p ∈ c.parents,
    CellId.compute i ∈ r.childrenOf p

/-- A compute cell is settled in `r` when its stored value equals its
function applied to the current values of its dependencies. -/
def cellSettled (r : Reactor T) (c : ComputeCell T) : Prop :=
  ∃ vs, r.parentValues c.parents = some vs ∧ c.val = c.func vs

/-- The whole graph is settled: every compute cell is. -/
def Reactor.Settled (r : Reactor T) : Prop :=
  ∀ (i : Nat) (c : ComputeCell T), r.compute[i]? = some c → cellSettled r c

/-- Reachability along dependent (`children`) edges between compute cells. -/
inductive CReach (r : Reactor T) : Nat → Nat → Prop where
  | refl (i : Nat) : CReach r i i
  | step (i j k : Nat) : CellId.compute j ∈ r.childrenOf (.compute i) →
      CReach r j k → CReach r i k

/-- Compute cell `j` is reachable from some entry of the worklist `wl`. -/
def InClosure (r : Reactor T) (wl : List CellId) (j : Nat) : Prop :=
  ∃ i, CellId.compute i ∈ wl ∧ CReach r i j

/-- The invariant of the propagation loop: every currently unsettled
compute cell is still reachable from the pending worklist. -/
def PropInv (r : Reactor T) (wl : List CellId) : Prop :=
  ∀ (j : Nat) (c : ComputeCell T), r.compute[j]? = some c → ¬ cellSettled r c →
    InClosure r wl j

/-- Reactor states reachable through the public API (`new`, `create_input`,
`create_compute`, `set_value`). -/
inductive Reachable : Reactor T → Prop where
  | base : Reachable (Reactor.new T)
  | crinput (r : Reactor T) (v : T) : Reachable r → Reachable (r.create_input v).1
  | crcompute (r : Reactor T) (deps : List CellId) (f : List T → T) :
      Reachable r → Reachable (r.create_compute deps f).1
  | setv (r : Reactor T) (fuel i : Nat) (v : T) (r' : Reactor T)
      (tr : List (Event T)) (b : Bool) :
      Reachable r → r.set_value fuel i v = some (r', tr, b) → Reachable r'

/-- Everything of a compute cell except its stored value; the propagation
engine only ever rewrites `val`, so this projection is invariant under it. -/
def cellShape (c : ComputeCell T) : List CellId × List CellId × List Nat × (List T → T) :=
  (c.children, c.parents, c.callbacks, c.func)

/-- Everything of a compute cell except its dependent list; `addChild` only
ever appends to `children`, so this projection is invariant under it. -/
def cellCore (c : ComputeCell T) : T × List CellId × List Nat × (List T → T) :=
  (c.val, c.parents, c.callbacks, c.func)

/-- An upper bound on the number of dependents of any compute cell, used as
the base of the termination measure of the propagation walk. -/
def branchBound (r : Reactor T) : Nat :=
  (r.compute.map (fun c => c.children.length)).foldr max 0

/-- Termination measure of one worklist entry: dependent edges always point
to compute cells with strictly larger identifiers, so `K ^ (n - i)`
strictly dominates the combined weight of the at most `K - 1` children. -/
def cellWeight (K n : Nat) : CellId → Nat
  | .input _ => 0
  | .compute i => K ^ (n - i)

/-- Termination measure of a whole worklist. -/
def wlWeight (K n : Nat) (wl : List CellId) : Nat :=
  (wl.map (cellWeight K n)).sum

/-! ### Helper lemmas -/

theorem collectValues_error_mem (r : Reactor T) (ds : List CellId) (d : CellId)
    (h : r.collectValues ds = .error d) : d ∈ ds ∧ r.value d = none := by
  induction ds with
  | nil => simp [Reactor.collectValues] at h
  | cons a as ih =>
    simp only [Reactor.collectValues] at h
    split at h
    · cases h
      exact ⟨List.mem_cons_self _ _, by assumption⟩
    · split at h
      · rename_i e he
        injection h with h'
        subst h'
        rcases ih he with ⟨hm, hv⟩
        exact ⟨List.mem_cons_of_mem _ hm, hv⟩
      · cases h

theorem collectValues_error_of_mem (r : Reactor T) (ds : List CellId)
    (h : ∃ d ∈ ds, r.value d = none) : ∃ e, r.collectValues ds = .error e := by
  induction ds with
  | nil => rcases h with ⟨d, hd, _⟩; cases hd
  | cons a as ih =>
    rcases h with ⟨d, hd, hv⟩
    by_cases ha : r.value a = none
    · exact ⟨a, by simp [Reactor.collectValues, ha]⟩
    · rcases Option.ne_none_iff_exists'.mp ha with ⟨w, hw⟩
      have hd' : d ∈ as := by
        rcases List.mem_cons.mp hd with h1 | h1
        · exact absurd hv (h1 ▸ ha)
        · exact h1
      rcases ih ⟨d, hd', hv⟩ with ⟨e, he⟩
      exact ⟨e, by simp [Reactor.collectValues, hw, he]⟩

theorem collectValues_ok_iff (r : Reactor T) (ds : List CellId) (vs : List T) :
    r.collectValues ds = .ok vs ↔ r.parentValues ds = some vs := by
  induction ds generalizing vs with
  | nil => simp [Reactor.collectValues, Reactor.parentValues]
  | cons a as ih =>
    simp only [Reactor.collectValues, Reactor.parentValues]
    cases hv : r.value a with
    | none => simp
    | some w =>
      cases hcv : r.collectValues as with
      | error e =>
        have : r.parentValues as ≠ some vs := fun hc => by
          have := (ih vs).mpr hc; rw [hcv] at this; cases this
        cases hpv : r.parentValues as with
        | none => simp
        | some ws =>
          constructor
          · intro hc; cases hc
          · intro hc
            have := (ih ws).mpr hpv
            rw [hcv] at this; cases this
      | ok ws =>
        have hpv := (ih ws).mp hcv
        rw [hpv]
        constructor
        · intro hc; cases hc; rfl
        · intro hc; cases hc; rfl

theorem update_preserves_inputs (fuel : Nat) (r : Reactor T) (wl : List CellId)
    (r2 : Reactor T) (tr : List (Event T))
    (h : Reactor.update_compute_cell_value fuel r wl = some (r2, tr)) :
    r2.inputs = r.inputs := by
  induction fuel generalizing r wl r2 tr with
  | zero =>
    simp only [Reactor.update_compute_cell_value] at h
    split at h
    · cases h; rfl
    · cases h
  | succ fuel ih =>
    simp only [Reactor.update_compute_cell_value] at h
    split at h
    · cases h; rfl
    · split at h
      · cases h
      · split at h
        · cases h
        · split at h
          · cases h
          · split at h
            · exact ih _ _ _ _ h
            · split at h
              · cases h
              · cases h
                rename_i heq
                exact (ih _ _ _ _ heq).trans rfl

/-! ### Claim theorems (first batch) -/

/-- C1 (refutation evidence): in the diamond graph (input `A = 1`; `B = A+1`;
`C = A+1`; `D = B+C`, one callback registered on `D`), `set_value` of `3`
into `A` fires `D`'s callback twice — first with the intermediate value
`6 = (3+1)+(1+1)`, then with `8` — because the propagation recomputes `D`
once per incoming path.  The claim (and the comment above `add_callback` in
the source) requires exactly one invocation, with the final value `8`. -/
theorem C1_diamond_callback_fires_twice :
    (Reactor.set_value 10 diamondCb 0 3).map (fun p => p.2) =
      some ([⟨2, 0, 6⟩, ⟨2, 0, 8⟩], true) := rfl

/-- C3: `set_value` on an identifier that does not resolve to an input cell
returns `false`, fires nothing and leaves the reactor unchanged; on an
existing input cell it stores the new value (even when it equals the old
one) and returns `true`. -/
theorem C3_set_value_contract (fuel : Nat) (r : Reactor T) (i : Nat) (v : T) :
    (r.inputs[i]? = none → Reactor.set_value fuel r i v = some (r, [], false)) ∧
    (∀ (c : InputCell T) (r' : Reactor T) (tr : List (Event T)) (b : Bool),
      r.inputs[i]? = some c → Reactor.set_value fuel r i v = some (r', tr, b) →
      b = true ∧ r'.inputs[i]? = some { c with val := v }) := by
  constructor
  · intro hnone
    simp [Reactor.set_value, hnone]
  · intro c r' tr b hc h
    simp only [Reactor.set_value, hc] at h
    split at h
    · cases h
    · cases h
      rename_i heq
      refine ⟨rfl, ?_⟩
      have hi : i < r.inputs.length := by
        have := List.getElem?_eq_some.mp hc
        exact this.1
      have hinp := update_preserves_inputs _ _ _ _ _ heq
      rw [hinp]
      simp only []
      rw [List.getElem?_set_self (by simpa using hi)]

/-- C3 witness: concrete instances of both halves. -/
theorem C3_set_value_contract_witness :
    (Reactor.set_value 1 (Reactor.new Int) 0 7 = some (Reactor.new Int, [], false)) ∧
    (true = true ∧ tinyR7.inputs[0]? = some ⟨7, []⟩) :=
  ⟨(C3_set_value_contract 1 (Reactor.new Int) 0 7).1 rfl,
   (C3_set_value_contract 1 tinyR 0 7).2 ⟨5, []⟩ tinyR7 [] true rfl rfl⟩

/-- C4: `create_compute` fails exactly when some dependency does not
resolve, and the reported identity is itself an unresolved member of the
dependency list. -/
theorem C4_create_compute_error (r : Reactor T) (deps : List CellId) (f : List T → T) :
    (∀ d, (r.create_compute deps f).2 = .error d → d ∈ deps ∧ r.value d = none) ∧
    ((∃ d ∈ deps, r.value d = none) → ∃ e, (r.create_compute deps f).2 = .error e) := by
  constructor
  · intro d hd
    simp only [Reactor.create_compute] at hd
    split at hd
    · rename_i e he
      injection hd with hd'
      subst hd'
      exact collectValues_error_mem r deps _ he
    · cases hd
  · intro hex
    rcases collectValues_error_of_mem r deps hex with ⟨e, he⟩
    exact ⟨e, by simp [Reactor.create_compute, he]⟩

/-- C4 witness: a one-element dependency list whose entry was never
created. -/
theorem C4_create_compute_error_witness :
    ((CellId.input 5) ∈ [CellId.input 5] ∧
      (Reactor.new Int).value (.input 5) = none) ∧
    (∃ e, ((Reactor.new Int).create_compute [CellId.input 5] (fun l => l.sum)).2 =
      .error e) :=
  ⟨(C4_create_compute_error (Reactor.new Int) [CellId.input 5] (fun l => l.sum)).1
      (CellId.input 5) rfl,
   (C4_create_compute_error (Reactor.new Int) [CellId.input 5] (fun l => l.sum)).2
      ⟨CellId.input 5, by simp, rfl⟩⟩

/-- C7 (refutation evidence): the body of `add_callback` in the source is
`todo!()`: for every reactor and identifier the call panics; it never
returns an identifier and never stores a callback, contradicting the
contract in the claim and in the source's own comment. -/
theorem C7_add_callback_todo (r : Reactor T) (id : Nat) :
    r.add_callback id = Diverge.todo := rfl

/-- C8 (refutation evidence): the body of `remove_callback` in the source is
`todo!(..)`: for every reactor, cell and callback identifier the call
panics; it never returns `Ok` nor either typed error, contradicting the
contract in the claim and in the source's own comment. -/
theorem C8_remove_callback_todo (r : Reactor T) (cell cb : Nat) :
    r.remove_callback cell cb = Diverge.todo := rfl

/-- C9: when `create_compute` reports an unresolved dependency, the reactor
is completely unchanged — the validation loop performs only reads, so no
cell, edge or identifier is consumed before the early return. -/
theorem C9_create_compute_error_no_mutation (r : Reactor T) (deps : List CellId)
    (f : List T → T) (e : CellId) (h : (r.create_compute deps f).2 = .error e) :
    (r.create_compute deps f).1 = r := by
  simp only [Reactor.create_compute] at h ⊢
  split at h
  · rfl
  · cases h

/-- C9 witness: the failed creation on the empty reactor leaves it equal to
itself. -/
theorem C9_create_compute_error_no_mutation_witness :
    ((Reactor.new Int).create_compute [CellId.input 5] (fun l => l.sum)).1 =
      Reactor.new Int :=
  C9_create_compute_error_no_mutation (Reactor.new Int) [CellId.input 5]
    (fun l => l.sum) (CellId.input 5) rfl

theorem getElem?_some_lt {α : Type} {l : List α} {i : Nat} {a : α}
    (h : l[i]? = some a) : i < l.length := by
  by_contra hlt
  push_neg at hlt
  rw [List.getElem?_eq_none hlt] at h
  cases h

theorem list_set_of_getElem? {α : Type} {l : List α} {i : Nat} {a : α}
    (h : l[i]? = some a) : l.set i a = l := by
  apply List.ext_getElem?
  intro j
  by_cases hij : i = j
  · subst hij
    rw [List.getElem?_set_self (getElem?_some_lt h), h]
  · rw [List.getElem?_set_ne hij]

theorem parentValues_total (r : Reactor T) (ps : List CellId)
    (h : ∀ p ∈ ps, (r.value p).isSome) : ∃ vs, r.parentValues ps = some vs := by
  induction ps with
  | nil => exact ⟨[], rfl⟩
  | cons p ps ih =>
    rcases Option.isSome_iff_exists.mp (h p (List.mem_cons_self _ _)) with ⟨v, hv⟩
    rcases ih (fun q hq => h q (List.mem_cons_of_mem _ hq)) with ⟨vs, hvs⟩
    exact ⟨v :: vs, by simp [Reactor.parentValues, hv, hvs]⟩

theorem parentValues_mem_isSome (r : Reactor T) (ps : List CellId) (vs : List T)
    (h : r.parentValues ps = some vs) : ∀ p ∈ ps, (r.value p).isSome := by
  induction ps generalizing vs with
  | nil => intro p hp; cases hp
  | cons q qs ih =>
    intro p hp
    simp only [Reactor.parentValues] at h
    split at h
    · cases h
    · rename_i v hv
      split at h
      · cases h
      · rename_i ws hws
        rcases List.mem_cons.mp hp with h1 | h1
        · subst h1; simp [hv]
        · exact ih ws hws p h1

theorem parentValues_congr (r' r : Reactor T) (ps : List CellId)
    (h : ∀ p ∈ ps, r'.value p = r.value p) : r'.parentValues ps = r.parentValues ps := by
  induction ps with
  | nil => rfl
  | cons q qs ih =>
    have hih := ih (fun p hp => h p (List.mem_cons_of_mem _ hp))
    simp only [Reactor.parentValues, h q (List.mem_cons_self _ _), hih]

theorem addChild_value (r : Reactor T) (d ch p : CellId) :
    (r.addChild d ch).value p = r.value p := by
  cases d with
  | input k =>
    simp only [Reactor.addChild]
    split
    · rename_i c hc
      cases p with
      | compute j => rfl
      | input j =>
        simp only [Reactor.value]
        by_cases hj : k = j
        · subst hj
          rw [List.getElem?_set_self (getElem?_some_lt hc), hc]
          rfl
        · rw [List.getElem?_set_ne hj]
    · rfl
  | compute k =>
    simp only [Reactor.addChild]
    split
    · rename_i c hc
      cases p with
      | input j => rfl
      | compute j =>
        simp only [Reactor.value]
        by_cases hj : k = j
        · subst hj
          rw [List.getElem?_set_self (getElem?_some_lt hc), hc]
          rfl
        · rw [List.getElem?_set_ne hj]
    · rfl

theorem addChild_inputs_length (r : Reactor T) (d ch : CellId) :
    (r.addChild d ch).inputs.length = r.inputs.length := by
  cases d <;> simp only [Reactor.addChild] <;> split <;> simp [List.length_set]

theorem addChild_compute_length (r : Reactor T) (d ch : CellId) :
    (r.addChild d ch).compute.length = r.compute.length := by
  cases d <;> simp only [Reactor.addChild] <;> split <;> simp [List.length_set]

theorem addChild_core (r : Reactor T) (d ch : CellId) (i : Nat) :
    ((r.addChild d ch).compute[i]?).map cellCore = (r.compute[i]?).map cellCore := by
  cases d with
  | input k => simp only [Reactor.addChild]; split <;> rfl
  | compute k =>
    simp only [Reactor.addChild]
    split
    · rename_i c hc
      by_cases hj : k = i
      · subst hj
        rw [List.getElem?_set_self (getElem?_some_lt hc), hc]
        rfl
      · rw [List.getElem?_set_ne hj]
    · rfl

theorem addChild_inputs_val (r : Reactor T) (d ch : CellId) (k : Nat) :
    ((r.addChild d ch).inputs[k]?).map (·.val) = (r.inputs[k]?).map (·.val) := by
  have h := addChild_value r d ch (.input k)
  simpa [Reactor.value] using h

theorem addChild_childrenOf_mono (r : Reactor T) (d ch e x : CellId)
    (h : x ∈ r.childrenOf e) : x ∈ (r.addChild d ch).childrenOf e := by
  cases d with
  | input k =>
    simp only [Reactor.addChild]
    split
    · rename_i c hc
      cases e with
      | compute j => exact h
      | input j =>
        simp only [Reactor.childrenOf] at h ⊢
        by_cases hj : k = j
        · subst hj
          rw [List.getElem?_set_self (getElem?_some_lt hc)]
          rw [hc] at h
          simp only [Option.map_some', Option.getD_some] at h ⊢
          exact List.mem_append_left _ h
        · rw [List.getElem?_set_ne hj]
          exact h
    · exact h
  | compute k =>
    simp only [Reactor.addChild]
    split
    · rename_i c hc
      cases e with
      | input j => exact h
      | compute j =>
        simp only [Reactor.childrenOf] at h ⊢
        by_cases hj : k = j
        · subst hj
          rw [List.getElem?_set_self (getElem?_some_lt hc)]
          rw [hc] at h
          simp only [Option.map_some', Option.getD_some] at h ⊢
          exact List.mem_append_left _ h
        · rw [List.getElem?_set_ne hj]
          exact h
    · exact h

theorem addChild_childrenOf_sub (r : Reactor T) (d ch e x : CellId)
    (h : x ∈ (r.addChild d ch).childrenOf e) : x ∈ r.childrenOf e ∨ x = ch := by
  cases d with
  | input k =>
    simp only [Reactor.addChild] at h
    split at h
    · rename_i c hc
      cases e with
      | compute j => exact Or.inl h
      | input j =>
        simp only [Reactor.childrenOf] at h ⊢
        by_cases hj : k = j
        · subst hj
          rw [List.getElem?_set_self (getElem?_some_lt hc)] at h
          rw [hc]
          simp only [Option.map_some', Option.getD_some] at h ⊢
          rcases List.mem_append.mp h with h1 | h1
          · exact Or.inl h1
          · exact Or.inr (List.mem_singleton.mp h1)
        · rw [List.getElem?_set_ne hj] at h
          exact Or.inl h
    · exact Or.inl h
  | compute k =>
    simp only [Reactor.addChild] at h
    split at h
    · rename_i c hc
      cases e with
      | input j => exact Or.inl h
      | compute j =>
        simp only [Reactor.childrenOf] at h ⊢
        by_cases hj : k = j
        · subst hj
          rw [List.getElem?_set_self (getElem?_some_lt hc)] at h
          rw [hc]
          simp only [Option.map_some', Option.getD_some] at h ⊢
          rcases List.mem_append.mp h with h1 | h1
          · exact Or.inl h1
          · exact Or.inr (List.mem_singleton.mp h1)
        · rw [List.getElem?_set_ne hj] at h
          exact Or.inl h
    · exact Or.inl h

theorem addChild_mem_self (r : Reactor T) (d ch : CellId)
    (h : (r.value d).isSome) : ch ∈ (r.addChild d ch).childrenOf d := by
  cases d with
  | input k =>
    rcases Option.isSome_iff_exists.mp h with ⟨v, hv⟩
    simp only [Reactor.value] at hv
    rcases Option.map_eq_some'.mp hv with ⟨c, hc, _⟩
    simp only [Reactor.addChild, hc, Reactor.childrenOf]
    rw [List.getElem?_set_self (getElem?_some_lt hc)]
    simp
  | compute k =>
    rcases Option.isSome_iff_exists.mp h with ⟨v, hv⟩
    simp only [Reactor.value] at hv
    rcases Option.map_eq_some'.mp hv with ⟨c, hc, _⟩
    simp only [Reactor.addChild, hc, Reactor.childrenOf]
    rw [List.getElem?_set_self (getElem?_some_lt hc)]
    simp

theorem fold_addChild_value (ch : CellId) (ds : List CellId) (acc : Reactor T) (p : CellId) :
    (ds.foldl (fun a d => a.addChild d ch) acc).value p = acc.value p := by
  induction ds generalizing acc with
  | nil => rfl
  | cons d ds ih => rw [List.foldl_cons, ih, addChild_value]

theorem fold_addChild_inputs_length (ch : CellId) (ds : List CellId) (acc : Reactor T) :
    (ds.foldl (fun a d => a.addChild d ch) acc).inputs.length = acc.inputs.length := by
  induction ds generalizing acc with
  | nil => rfl
  | cons d ds ih => rw [List.foldl_cons, ih, addChild_inputs_length]

theorem fold_addChild_compute_length (ch : CellId) (ds : List CellId) (acc : Reactor T) :
    (ds.foldl (fun a d => a.addChild d ch) acc).compute.length = acc.compute.length := by
  induction ds generalizing acc with
  | nil => rfl
  | cons d ds ih => rw [List.foldl_cons, ih, addChild_compute_length]

theorem fold_addChild_core (ch : CellId) (ds : List CellId) (acc : Reactor T) (i : Nat) :
    ((ds.foldl (fun a d => a.addChild d ch) acc).compute[i]?).map cellCore =
      (acc.compute[i]?).map cellCore := by
  induction ds generalizing acc with
  | nil => rfl
  | cons d ds ih => rw [List.foldl_cons, ih, addChild_core]

theorem fold_addChild_childrenOf_mono (ch : CellId) (ds : List CellId) (acc : Reactor T)
    (e x : CellId) (h : x ∈ acc.childrenOf e) :
    x ∈ (ds.foldl (fun a d => a.addChild d ch) acc).childrenOf e := by
  induction ds generalizing acc with
  | nil => exact h
  | cons d ds ih =>
    rw [List.foldl_cons]
    exact ih _ (addChild_childrenOf_mono _ _ _ _ _ h)

theorem fold_addChild_childrenOf_sub (ch : CellId) (ds : List CellId) (acc : Reactor T)
    (e x : CellId) (h : x ∈ (ds.foldl (fun a d => a.addChild d ch) acc).childrenOf e) :
    x ∈ acc.childrenOf e ∨ x = ch := by
  induction ds generalizing acc with
  | nil => exact Or.inl h
  | cons d ds ih =>
    rw [List.foldl_cons] at h
    rcases ih _ h with h1 | h1
    · exact addChild_childrenOf_sub _ _ _ _ _ h1
    · exact Or.inr h1

theorem fold_addChild_mem (ch : CellId) (ds : List CellId) :
    ∀ acc : Reactor T, (∀ d ∈ ds, (acc.value d).isSome) →
    ∀ d ∈ ds, ch ∈ (ds.foldl (fun a d => a.addChild d ch) acc).childrenOf d := by
  induction ds with
  | nil => intro acc _ d hd; cases hd
  | cons d0 ds ih =>
    intro acc hall d hd
    rw [List.foldl_cons]
    rcases List.mem_cons.mp hd with h1 | h1
    · subst h1
      exact fold_addChild_childrenOf_mono _ _ _ _ _
        (addChild_mem_self _ _ _ (hall d (List.mem_cons_self _ _)))
    · exact ih _ (fun q hq => by
        rw [addChild_value]
        exact hall q (List.mem_cons_of_mem _ hq)) d h1

theorem value_append_compute (r : Reactor T) (c : ComputeCell T) (p : CellId)
    (h : (r.value p).isSome) :
    ({ r with compute := r.compute ++ [c] } : Reactor T).value p = r.value p := by
  cases p with
  | input k => rfl
  | compute k =>
    simp only [Reactor.value] at h ⊢
    have hk : k < r.compute.length := by
      rcases Option.isSome_iff_exists.mp h with ⟨v, hv⟩
      rcases Option.map_eq_some'.mp hv with ⟨c0, hc0, _⟩
      exact getElem?_some_lt hc0
    rw [List.getElem?_append, if_pos hk]

/-- C5: when every dependency resolves, `create_compute` succeeds with the
fresh identifier `compute.len()`; the new cell's stored value — which is
what `value` returns for it — is `f` applied to the dependency values in
declared order, and the new identifier is appended to the dependent list of
each dependency. -/
theorem C5_create_compute_success (r : Reactor T) (deps : List CellId) (f : List T → T)
    (vs : List T) (h : r.parentValues deps = some vs) :
    (r.create_compute deps f).2 = .ok r.compute.length ∧
    (r.create_compute deps f).1.value (.compute r.compute.length) = some (f vs) ∧
    ∀ d ∈ deps, CellId.compute r.compute.length ∈
      (r.create_compute deps f).1.childrenOf d := by
  have hcv : r.collectValues deps = .ok vs := (collectValues_ok_iff r deps vs).mpr h
  simp only [Reactor.create_compute, hcv]
  refine ⟨trivial, ?_, ?_⟩
  · rw [fold_addChild_value]
    simp only [Reactor.value]
    rw [List.getElem?_concat_length]
    rfl
  · intro d hd
    apply fold_addChild_mem
    · intro d' hd'
      have hs : (r.value d').isSome := parentValues_mem_isSome r deps vs h d' hd'
      rw [value_append_compute r _ d' hs]
      exact hs
    · exact hd

/-- C5 witness: a compute cell over the single input of `tinyR`. -/
theorem C5_create_compute_success_witness :
    (tinyR.create_compute [CellId.input 0] (fun l => l.sum)).2 = .ok 0 ∧
    (tinyR.create_compute [CellId.input 0] (fun l => l.sum)).1.value (.compute 0) =
      some 5 ∧
    CellId.compute 0 ∈
      (tinyR.create_compute [CellId.input 0] (fun l => l.sum)).1.childrenOf (.input 0) := by
  have h := C5_create_compute_success tinyR [CellId.input 0] (fun l => l.sum) [5] rfl
  exact ⟨h.1, h.2.1, h.2.2 (.input 0) (List.mem_singleton_self _)⟩

theorem getElem?_isSome_iff {α : Type} {l : List α} {i : Nat} :
    (l[i]?).isSome ↔ i < l.length := by
  constructor
  · intro h
    rcases Option.isSome_iff_exists.mp h with ⟨a, ha⟩
    exact getElem?_some_lt ha
  · intro h
    rw [List.getElem?_eq_getElem h]
    rfl

theorem length_eq_of_getElem?_map {α β : Type} (f : α → β) (l' l : List α)
    (h : ∀ i : Nat, (l'[i]?).map f = (l[i]?).map f) : l'.length = l.length := by
  have hiff : ∀ i, i < l'.length ↔ i < l.length := by
    intro i
    rw [← getElem?_isSome_iff (l := l'), ← getElem?_isSome_iff (l := l)]
    have hi := h i
    cases h1 : l'[i]? <;> cases h2 : l[i]? <;> rw [h1, h2] at hi <;> simp_all
  have h1 := hiff l'.length
  have h2 := hiff l.length
  omega

theorem cellShape_eq_iff {c c' : ComputeCell T} (h : cellShape c = cellShape c') :
    c.children = c'.children ∧ c.parents = c'.parents ∧
    c.callbacks = c'.callbacks ∧ c.func = c'.func := by
  simp only [cellShape, Prod.mk.injEq] at h
  exact h

theorem cellCore_eq_iff {c c' : ComputeCell T} (h : cellCore c = cellCore c') :
    c.val = c'.val ∧ c.parents = c'.parents ∧
    c.callbacks = c'.callbacks ∧ c.func = c'.func := by
  simp only [cellCore, Prod.mk.injEq] at h
  exact h

theorem update_step (fuel : Nat) (r : Reactor T) (j : Nat) (rest : List CellId)
    (r2 : Reactor T) (tr : List (Event T))
    (h : Reactor.update_compute_cell_value (fuel+1) r (CellId.compute j :: rest) =
      some (r2, tr)) :
    ∃ cell pv, r.compute[j]? = some cell ∧ r.parentValues cell.parents = some pv ∧
      ((cell.func pv = cell.val ∧
          Reactor.update_compute_cell_value fuel r (cell.children ++ rest) =
            some (r2, tr)) ∨
       (cell.func pv ≠ cell.val ∧ ∃ tr',
          Reactor.update_compute_cell_value fuel
            { r with compute := r.compute.set j { cell with val := cell.func pv } }
            (cell.children ++ rest) = some (r2, tr') ∧
          tr = cell.callbacks.map (fun cb => ⟨j, cb, cell.func pv⟩) ++ tr')) := by
  simp only [Reactor.update_compute_cell_value] at h
  split at h
  · exact absurd h (by simp)
  · rename_i cell hcell
    split at h
    · exact absurd h (by simp)
    · rename_i pv hpv
      split at h
      · rename_i hval
        exact ⟨cell, pv, hcell, hpv, Or.inl ⟨hval, h⟩⟩
      · rename_i hval
        split at h
        · exact absurd h (by simp)
        · rename_i r2' tr' heq
          cases h
          exact ⟨cell, pv, hcell, hpv, Or.inr ⟨hval, tr', heq, rfl⟩⟩

theorem update_shape (fuel : Nat) (r : Reactor T) (wl : List CellId)
    (r2 : Reactor T) (tr : List (Event T))
    (h : Reactor.update_compute_cell_value fuel r wl = some (r2, tr)) :
    ∀ i : Nat, (r2.compute[i]?).map cellShape = (r.compute[i]?).map cellShape := by
  induction fuel generalizing r wl r2 tr with
  | zero =>
    simp only [Reactor.update_compute_cell_value] at h
    split at h
    · cases h; intro i; rfl
    · cases h
  | succ fuel ih =>
    cases wl with
    | nil =>
      simp only [Reactor.update_compute_cell_value] at h
      cases h; intro i; rfl
    | cons id rest =>
      cases id with
      | input k =>
        simp only [Reactor.update_compute_cell_value] at h
        exact absurd h (by simp)
      | compute j =>
        rcases update_step fuel r j rest r2 tr h with
          ⟨cell, pv, hcell, hpv, (⟨hval, hrec⟩ | ⟨hval, tr', hrec, htr⟩)⟩
        · exact ih _ _ _ _ hrec
        · intro i
          rw [ih _ _ _ _ hrec i]
          by_cases hji : j = i
          · subst hji
            rw [List.getElem?_set_self (getElem?_some_lt hcell), hcell]
            rfl
          · rw [List.getElem?_set_ne hji]

theorem update_compute_length (fuel : Nat) (r : Reactor T) (wl : List CellId)
    (r2 : Reactor T) (tr : List (Event T))
    (h : Reactor.update_compute_cell_value fuel r wl = some (r2, tr)) :
    r2.compute.length = r.compute.length :=
  length_eq_of_getElem?_map cellShape _ _ (update_shape fuel r wl r2 tr h)

theorem update_childrenOf (fuel : Nat) (r : Reactor T) (wl : List CellId)
    (r2 : Reactor T) (tr : List (Event T))
    (h : Reactor.update_compute_cell_value fuel r wl = some (r2, tr)) (p : CellId) :
    r2.childrenOf p = r.childrenOf p := by
  cases p with
  | input k => simp only [Reactor.childrenOf, update_preserves_inputs _ _ _ _ _ h]
  | compute k =>
    have hs := update_shape _ _ _ _ _ h k
    simp only [Reactor.childrenOf]
    cases h1 : r2.compute[k]? with
    | none =>
      cases h2 : r.compute[k]? with
      | none => rfl
      | some c => rw [h1, h2] at hs; cases hs
    | some c =>
      cases h2 : r.compute[k]? with
      | none => rw [h1, h2] at hs; cases hs
      | some c' =>
        rw [h1, h2] at hs
        injection hs with hs'
        rw [Option.map_some', Option.map_some', Option.getD_some, Option.getD_some]
        exact (cellShape_eq_iff hs').1

theorem getElem?_set_cases {α : Type} {l : List α} {i : Nat} {a : α} {j : Nat} {b : α}
    (h : (l.set i a)[j]? = some b) :
    (i = j ∧ b = a ∧ (l[j]?).isSome) ∨ (i ≠ j ∧ l[j]? = some b) := by
  by_cases hij : i = j
  · subst hij
    left
    have hlen : i < l.length := by
      have := getElem?_some_lt h
      rwa [List.length_set] at this
    rw [List.getElem?_set_self hlen] at h
    injection h with h'
    exact ⟨rfl, h'.symm, getElem?_isSome_iff.mpr hlen⟩
  · right
    rw [List.getElem?_set_ne hij] at h
    exact ⟨hij, h⟩

theorem value_set_compute_self (r : Reactor T) (i : Nat) (cell : ComputeCell T) (nv : T)
    (hc : r.compute[i]? = some cell) :
    ({ r with compute := r.compute.set i { cell with val := nv } } : Reactor T).value
      (.compute i) = some nv := by
  simp only [Reactor.value]
  rw [List.getElem?_set_self (getElem?_some_lt hc)]
  rfl

theorem value_set_compute_ne (r : Reactor T) (i : Nat) (cell : ComputeCell T) (nv : T)
    (p : CellId) (hp : p ≠ .compute i) :
    ({ r with compute := r.compute.set i { cell with val := nv } } : Reactor T).value p =
      r.value p := by
  cases p with
  | input k => rfl
  | compute k =>
    simp only [Reactor.value]
    rw [List.getElem?_set_ne (fun hik => hp (by rw [hik]))]

theorem childrenOf_set_compute (r : Reactor T) (i : Nat) (cell : ComputeCell T) (nv : T)
    (hc : r.compute[i]? = some cell) (p : CellId) :
    ({ r with compute := r.compute.set i { cell with val := nv } } : Reactor T).childrenOf
      p = r.childrenOf p := by
  cases p with
  | input k => rfl
  | compute k =>
    simp only [Reactor.childrenOf]
    by_cases hik : i = k
    · subst hik
      rw [List.getElem?_set_self (getElem?_some_lt hc), hc]
      rfl
    · rw [List.getElem?_set_ne hik]

theorem wf_set_compute_val (r : Reactor T) (i : Nat) (cell : ComputeCell T) (nv : T)
    (hc : r.compute[i]? = some cell) (hw : Wf r) :
    Wf { r with compute := r.compute.set i { cell with val := nv } } := by
  constructor
  · intro k c hk x hx
    rcases hw.inputChildren k c hk x hx with ⟨j, hxj, hj⟩
    refine ⟨j, hxj, ?_⟩
    simpa [List.length_set] using hj
  · intro i0 c0 h0 x hx
    rcases getElem?_set_cases h0 with ⟨rfl, rfl, _⟩ | ⟨hne, hl⟩
    · rcases hw.computeChildren i cell hc x hx with ⟨j, hxj, hij, hj⟩
      refine ⟨j, hxj, hij, ?_⟩
      simpa [List.length_set] using hj
    · rcases hw.computeChildren i0 c0 hl x hx with ⟨j, hxj, hij, hj⟩
      refine ⟨j, hxj, hij, ?_⟩
      simpa [List.length_set] using hj
  · intro i0 c0 h0 p hp
    rcases getElem?_set_cases h0 with ⟨rfl, rfl, _⟩ | ⟨hne, hl⟩
    · exact hw.parentsOk i cell hc p hp
    · exact hw.parentsOk i0 c0 hl p hp
  · intro i0 c0 h0 p hp
    rw [childrenOf_set_compute r i cell nv hc p]
    rcases getElem?_set_cases h0 with ⟨rfl, rfl, _⟩ | ⟨hne, hl⟩
    · exact hw.mirror i cell hc p hp
    · exact hw.mirror i0 c0 hl p hp

theorem creach_congr (r' r : Reactor T) (hch : ∀ p, r'.childrenOf p = r.childrenOf p)
    (i j : Nat) (h : CReach r i j) : CReach r' i j := by
  induction h with
  | refl i => exact CReach.refl i
  | step i m k hmem _ ih => exact CReach.step i m k (by rw [hch]; exact hmem) ih

theorem inClosure_congr (r' r : Reactor T)
    (hch : ∀ p, r'.childrenOf p = r.childrenOf p) (wl : List CellId) (j : Nat)
    (h : InClosure r wl j) : InClosure r' wl j := by
  rcases h with ⟨i0, hmem, hre⟩
  exact ⟨i0, hmem, creach_congr r' r hch i0 j hre⟩

theorem inClosure_step (r : Reactor T) (i : Nat) (cell : ComputeCell T)
    (hc : r.compute[i]? = some cell) (rest : List CellId) (j : Nat)
    (h : InClosure r (CellId.compute i :: rest) j) (hj : j ≠ i) :
    InClosure r (cell.children ++ rest) j := by
  rcases h with ⟨i0, hmem, hre⟩
  rcases List.mem_cons.mp hmem with h1 | h1
  · have hi0 : i0 = i := by injection h1
    subst hi0
    cases hre with
    | refl => exact absurd rfl hj
    | step _ m _ hmem2 hre2 =>
      refine ⟨m, List.mem_append_left _ ?_, hre2⟩
      have hch : r.childrenOf (.compute i0) = cell.children := by
        simp [Reactor.childrenOf, hc]
      rwa [hch] at hmem2
  · exact ⟨i0, List.mem_append_right _ h1, hre⟩

theorem settled_of_propInv_nil (r : Reactor T) (hinv : PropInv r []) : r.Settled := by
  intro i c hc
  by_contra hns
  rcases hinv i c hc hns with ⟨i0, hmem, _⟩
  cases hmem

theorem cellSettled_congr (r' r : Reactor T) (c : ComputeCell T)
    (h : ∀ p ∈ c.parents, r'.value p = r.value p) :
    cellSettled r c → cellSettled r' c := by
  rintro ⟨vs, hvs, hval⟩
  exact ⟨vs, by rw [parentValues_congr r' r c.parents h, hvs], hval⟩

theorem update_settles (fuel : Nat) (r : Reactor T) (wl : List CellId)
    (r2 : Reactor T) (tr : List (Event T)) (hw : Wf r) (hinv : PropInv r wl)
    (h : Reactor.update_compute_cell_value fuel r wl = some (r2, tr)) :
    r2.Settled := by
  induction fuel generalizing r wl r2 tr with
  | zero =>
    simp only [Reactor.update_compute_cell_value] at h
    split at h
    · cases h
      rename_i hempty
      rw [List.isEmpty_iff.mp hempty] at hinv
      exact settled_of_propInv_nil _ hinv
    · cases h
  | succ fuel ih =>
    cases wl with
    | nil =>
      simp only [Reactor.update_compute_cell_value] at h
      cases h
      exact settled_of_propInv_nil _ hinv
    | cons id rest =>
      cases id with
      | input k =>
        simp only [Reactor.update_compute_cell_value] at h
        exact absurd h (by simp)
      | compute j =>
        rcases update_step fuel r j rest r2 tr h with
          ⟨cell, pv, hcell, hpv, (⟨hval, hrec⟩ | ⟨hval, tr', hrec, htr⟩)⟩
        · -- value unchanged: state is untouched, walk the children
          refine ih r (cell.children ++ rest) r2 tr hw ?_ hrec
          intro j0 c0 h0 hns
          by_cases hj0 : j0 = j
          · subst hj0
            rw [h0] at hcell
            injection hcell with hcc
            subst hcc
            exact absurd ⟨pv, hpv, hval.symm⟩ hns
          · exact inClosure_step r j cell hcell rest j0 (hinv j0 c0 h0 hns) hj0
        · -- value changed: j's cell now holds its recomputed value
          have hparents_ne : ∀ p ∈ cell.parents, p ≠ CellId.compute j := by
            intro p hp hpj
            have := hw.parentsOk j cell hcell p hp
            subst hpj
            simp at this
          have hvals : ∀ p ∈ cell.parents,
              ({ r with compute := r.compute.set j { cell with val := cell.func pv } } :
                Reactor T).value p = r.value p :=
            fun p hp => value_set_compute_ne r j cell (cell.func pv) p (hparents_ne p hp)
          refine ih _ (cell.children ++ rest) r2 tr'
            (wf_set_compute_val r j cell (cell.func pv) hcell hw) ?_ hrec
          intro j0 c0 h0 hns
          have hch := childrenOf_set_compute r j cell (cell.func pv) hcell
          apply inClosure_congr _ r hch
          by_cases hj0 : j0 = j
          · subst hj0
            exfalso
            apply hns
            rcases getElem?_set_cases h0 with ⟨_, rfl, _⟩ | ⟨hne, _⟩
            · exact ⟨pv, by rw [parentValues_congr _ r cell.parents hvals, hpv], rfl⟩
            · exact absurd rfl hne
          · rcases getElem?_set_cases h0 with ⟨heq, _, _⟩ | ⟨hne, hl⟩
            · exact absurd heq.symm hj0
            · by_cases hpmem : CellId.compute j ∈ c0.parents
              · have hm := hw.mirror j0 c0 hl (CellId.compute j) hpmem
                have hcj : r.childrenOf (.compute j) = cell.children := by
                  simp [Reactor.childrenOf, hcell]
                rw [hcj] at hm
                exact ⟨j0, List.mem_append_left _ hm, CReach.refl j0⟩
              · have hvals0 : ∀ p ∈ c0.parents,
                    ({ r with compute := r.compute.set j { cell with val := cell.func pv } } :
                      Reactor T).value p = r.value p := by
                  intro p hp
                  refine value_set_compute_ne r j cell (cell.func pv) p ?_
                  intro hpj
                  exact hpmem (hpj ▸ hp)
                have hns0 : ¬ cellSettled r c0 := by
                  intro hs
                  exact hns (cellSettled_congr _ r c0 hvals0 hs)
                exact inClosure_step r j cell hcell rest j0 (hinv j0 c0 hl hns0) hj0

theorem update_noop (fuel : Nat) (r : Reactor T) (wl : List CellId)
    (r2 : Reactor T) (tr : List (Event T)) (hs : r.Settled)
    (h : Reactor.update_compute_cell_value fuel r wl = some (r2, tr)) :
    r2 = r ∧ tr = [] := by
  induction fuel generalizing r wl r2 tr with
  | zero =>
    simp only [Reactor.update_compute_cell_value] at h
    split at h
    · cases h; exact ⟨rfl, rfl⟩
    · cases h
  | succ fuel ih =>
    cases wl with
    | nil =>
      simp only [Reactor.update_compute_cell_value] at h
      cases h
      exact ⟨rfl, rfl⟩
    | cons id rest =>
      cases id with
      | input k =>
        simp only [Reactor.update_compute_cell_value] at h
        exact absurd h (by simp)
      | compute j =>
        rcases update_step fuel r j rest r2 tr h with
          ⟨cell, pv, hcell, hpv, (⟨hval, hrec⟩ | ⟨hval, tr', hrec, htr⟩)⟩
        · exact ih r _ r2 tr hs hrec
        · rcases hs j cell hcell with ⟨vs, hvs, hv⟩
          rw [hpv] at hvs
          injection hvs with hvs'
          subst hvs'
          exact absurd hv.symm hval

theorem map_eq_some_transfer {α β : Type} {f : α → β} {o' o : Option α}
    (h : o'.map f = o.map f) {a : α} (ha : o' = some a) :
    ∃ b, o = some b ∧ f a = f b := by
  subst ha
  cases o with
  | none => cases h
  | some b => exact ⟨b, rfl, by injection h⟩

theorem wf_of_update (fuel : Nat) (r : Reactor T) (wl : List CellId)
    (r2 : Reactor T) (tr : List (Event T)) (hw : Wf r)
    (h : Reactor.update_compute_cell_value fuel r wl = some (r2, tr)) : Wf r2 := by
  have hin := update_preserves_inputs _ _ _ _ _ h
  have hsh := update_shape _ _ _ _ _ h
  have hlen := update_compute_length _ _ _ _ _ h
  have hch := update_childrenOf _ _ _ _ _ h
  constructor
  · intro k c hk x hx
    rw [hin] at hk
    rcases hw.inputChildren k c hk x hx with ⟨j, hxj, hj⟩
    exact ⟨j, hxj, by rw [hlen]; exact hj⟩
  · intro i0 c0 h0 x hx
    rcases map_eq_some_transfer (hsh i0) h0 with ⟨c1, h1, hshape⟩
    obtain ⟨hch0, hpar, hcb, hf⟩ := cellShape_eq_iff hshape
    rcases hw.computeChildren i0 c1 h1 x (hch0 ▸ hx) with ⟨j, hxj, hij, hj⟩
    exact ⟨j, hxj, hij, by rw [hlen]; exact hj⟩
  · intro i0 c0 h0 p hp
    rcases map_eq_some_transfer (hsh i0) h0 with ⟨c1, h1, hshape⟩
    obtain ⟨hch0, hpar, hcb, hf⟩ := cellShape_eq_iff hshape
    have := hw.parentsOk i0 c1 h1 p (hpar ▸ hp)
    cases p with
    | input k => rw [hin]; exact this
    | compute k => exact this
  · intro i0 c0 h0 p hp
    rcases map_eq_some_transfer (hsh i0) h0 with ⟨c1, h1, hshape⟩
    obtain ⟨hch0, hpar, hcb, hf⟩ := cellShape_eq_iff hshape
    rw [hch p]
    exact hw.mirror i0 c1 h1 p (hpar ▸ hp)

theorem value_set_input_ne (r : Reactor T) (i : Nat) (c : InputCell T) (v : T)
    (p : CellId) (hp : p ≠ .input i) :
    ({ r with inputs := r.inputs.set i { c with val := v } } : Reactor T).value p =
      r.value p := by
  cases p with
  | compute k => rfl
  | input k =>
    simp only [Reactor.value]
    rw [List.getElem?_set_ne (fun hik => hp (by rw [hik]))]

theorem wf_set_input_val (r : Reactor T) (i : Nat) (c : InputCell T) (v : T)
    (hc : r.inputs[i]? = some c) (hw : Wf r) :
    Wf { r with inputs := r.inputs.set i { c with val := v } } := by
  constructor
  · intro k c0 hk x hx
    rcases getElem?_set_cases hk with ⟨rfl, rfl, _⟩ | ⟨hne, hl⟩
    · exact hw.inputChildren i c hc x hx
    · exact hw.inputChildren k c0 hl x hx
  · exact fun i0 c0 h0 x hx => hw.computeChildren i0 c0 h0 x hx
  · intro i0 c0 h0 p hp
    have := hw.parentsOk i0 c0 h0 p hp
    cases p with
    | input k => simpa [List.length_set] using this
    | compute k => exact this
  · intro i0 c0 h0 p hp
    have hm := hw.mirror i0 c0 h0 p hp
    cases p with
    | compute k => exact hm
    | input k =>
      simp only [Reactor.childrenOf] at hm ⊢
      by_cases hik : i = k
      · subst hik
        rw [List.getElem?_set_self (getElem?_some_lt hc)]
        rw [hc] at hm
        simpa using hm
      · rw [List.getElem?_set_ne hik]
        exact hm

theorem set_value_inputs (fuel : Nat) (r : Reactor T) (i : Nat) (v : T) (c : InputCell T)
    (r' : Reactor T) (tr : List (Event T)) (b : Bool)
    (hc : r.inputs[i]? = some c) (h : r.set_value fuel i v = some (r', tr, b)) :
    r'.inputs = r.inputs.set i { c with val := v } := by
  simp only [Reactor.set_value, hc] at h
  split at h
  · cases h
  · cases h
    rename_i heq
    exact update_preserves_inputs _ _ _ _ _ heq

theorem set_value_wf (fuel : Nat) (r : Reactor T) (i : Nat) (v : T)
    (r' : Reactor T) (tr : List (Event T)) (b : Bool) (hw : Wf r)
    (h : r.set_value fuel i v = some (r', tr, b)) : Wf r' := by
  simp only [Reactor.set_value] at h
  split at h
  · cases h; exact hw
  · rename_i c hc
    split at h
    · cases h
    · cases h
      rename_i heq
      exact wf_of_update _ _ _ _ _ (wf_set_input_val r i c v hc hw) heq

theorem set_value_settles (fuel : Nat) (r : Reactor T) (i : Nat) (v : T)
    (r' : Reactor T) (tr : List (Event T)) (b : Bool)
    (hw : Wf r) (hs : r.Settled)
    (h : r.set_value fuel i v = some (r', tr, b)) : r'.Settled := by
  simp only [Reactor.set_value] at h
  split at h
  · cases h; exact hs
  · rename_i c hc
    split at h
    · cases h
    · cases h
      rename_i heq
      refine update_settles fuel _ c.children _ _ (wf_set_input_val r i c v hc hw) ?_ heq
      intro j0 c0 h0 hns
      by_cases hpmem : CellId.input i ∈ c0.parents
      · have hm := hw.mirror j0 c0 h0 (CellId.input i) hpmem
        have hci : r.childrenOf (.input i) = c.children := by
          simp [Reactor.childrenOf, hc]
        rw [hci] at hm
        exact ⟨j0, hm, CReach.refl j0⟩
      · have hvals : ∀ p ∈ c0.parents,
            ({ r with inputs := r.inputs.set i { c with val := v } } : Reactor T).value p =
              r.value p := by
          intro p hp
          refine value_set_input_ne r i c v p ?_
          intro hpi
          exact hpmem (hpi ▸ hp)
        exact absurd (cellSettled_congr _ r c0 hvals (hs j0 c0 h0)) hns

theorem getElem?_append_cases {α : Type} {l1 l2 : List α} {k : Nat} {a : α}
    (h : (l1 ++ l2)[k]? = some a) :
    (k < l1.length ∧ l1[k]? = some a) ∨ (l1.length ≤ k ∧ l2[k - l1.length]? = some a) := by
  rw [List.getElem?_append] at h
  split at h
  · exact Or.inl ⟨by assumption, h⟩
  · rename_i hk
    exact Or.inr ⟨by omega, h⟩

theorem parents_resolve (r : Reactor T) (hw : Wf r) (i : Nat) (c : ComputeCell T)
    (hc : r.compute[i]? = some c) : ∀ p ∈ c.parents, (r.value p).isSome := by
  intro p hp
  have hb := hw.parentsOk i c hc p hp
  cases p with
  | input k =>
    have hb' : k < r.inputs.length := hb
    simp only [Reactor.value]
    rw [Option.isSome_map']
    exact getElem?_isSome_iff.mpr hb'
  | compute k =>
    have hb' : k < i := hb
    simp only [Reactor.value]
    rw [Option.isSome_map']
    exact getElem?_isSome_iff.mpr (lt_trans hb' (getElem?_some_lt hc))

theorem value_create_input (r : Reactor T) (v : T) (p : CellId)
    (hp : (r.value p).isSome) : (r.create_input v).1.value p = r.value p := by
  cases p with
  | compute k => rfl
  | input k =>
    simp only [Reactor.value] at hp ⊢
    rw [Option.isSome_map'] at hp
    have hk : k < r.inputs.length := getElem?_isSome_iff.mp hp
    simp only [Reactor.create_input]
    rw [List.getElem?_append, if_pos hk]

theorem wf_create_input (r : Reactor T) (v : T) (hw : Wf r) : Wf (r.create_input v).1 := by
  constructor
  · intro k c hk x hx
    rcases getElem?_append_cases hk with ⟨hlt, hl⟩ | ⟨hge, hl⟩
    · exact hw.inputChildren k c hl x hx
    · have hce : c = ⟨v, []⟩ := by
        cases hkl : k - r.inputs.length with
        | zero => rw [hkl] at hl; injection hl with h'; exact h'.symm
        | succ m => rw [hkl] at hl; simp at hl
      subst hce
      simp at hx
  · intro i0 c0 h0 x hx
    exact hw.computeChildren i0 c0 h0 x hx
  · intro i0 c0 h0 p hp
    have hb := hw.parentsOk i0 c0 h0 p hp
    cases p with
    | input k =>
      have hb' : k < r.inputs.length := hb
      show k < (r.inputs ++ [(⟨v, []⟩ : InputCell T)]).length
      rw [List.length_append]
      omega
    | compute k => exact hb
  · intro i0 c0 h0 p hp
    have hm := hw.mirror i0 c0 h0 p hp
    cases p with
    | compute k => exact hm
    | input k =>
      have hb : k < r.inputs.length := hw.parentsOk i0 c0 h0 _ hp
      simp only [Reactor.childrenOf, Reactor.create_input] at hm ⊢
      rw [List.getElem?_append, if_pos hb]
      exact hm

theorem settled_create_input (r : Reactor T) (v : T) (hw : Wf r) (hs : r.Settled) :
    (r.create_input v).1.Settled := by
  intro i c hc
  rcases hs i c hc with ⟨vs, hvs, hv⟩
  have hvals : ∀ p ∈ c.parents, (r.create_input v).1.value p = r.value p :=
    fun p hp => value_create_input r v p (parents_resolve r hw i c hc p hp)
  exact ⟨vs, by rw [parentValues_congr _ r c.parents hvals, hvs], hv⟩

theorem addChild_childrenOf_sub2 (r : Reactor T) (d ch e x : CellId)
    (h : x ∈ (r.addChild d ch).childrenOf e) : x ∈ r.childrenOf e ∨ (x = ch ∧ e = d) := by
  cases d with
  | input k =>
    simp only [Reactor.addChild] at h
    split at h
    · rename_i c hc
      cases e with
      | compute j => exact Or.inl h
      | input j =>
        simp only [Reactor.childrenOf] at h ⊢
        by_cases hj : k = j
        · subst hj
          rw [List.getElem?_set_self (getElem?_some_lt hc)] at h
          rw [hc]
          simp only [Option.map_some', Option.getD_some] at h ⊢
          rcases List.mem_append.mp h with h1 | h1
          · exact Or.inl h1
          · exact Or.inr ⟨List.mem_singleton.mp h1, by trivial⟩
        · rw [List.getElem?_set_ne hj] at h
          exact Or.inl h
    · exact Or.inl h
  | compute k =>
    simp only [Reactor.addChild] at h
    split at h
    · rename_i c hc
      cases e with
      | input j => exact Or.inl h
      | compute j =>
        simp only [Reactor.childrenOf] at h ⊢
        by_cases hj : k = j
        · subst hj
          rw [List.getElem?_set_self (getElem?_some_lt hc)] at h
          rw [hc]
          simp only [Option.map_some', Option.getD_some] at h ⊢
          rcases List.mem_append.mp h with h1 | h1
          · exact Or.inl h1
          · exact Or.inr ⟨List.mem_singleton.mp h1, by trivial⟩
        · rw [List.getElem?_set_ne hj] at h
          exact Or.inl h
    · exact Or.inl h

theorem fold_addChild_childrenOf_sub2 (ch : CellId) (ds : List CellId) (acc : Reactor T)
    (e x : CellId) (h : x ∈ (ds.foldl (fun a d => a.addChild d ch) acc).childrenOf e) :
    x ∈ acc.childrenOf e ∨ (x = ch ∧ e ∈ ds) := by
  induction ds generalizing acc with
  | nil => exact Or.inl h
  | cons d ds ih =>
    rw [List.foldl_cons] at h
    rcases ih _ h with h1 | ⟨h1, h2⟩
    · rcases addChild_childrenOf_sub2 _ _ _ _ _ h1 with h2 | ⟨h2, h3⟩
      · exact Or.inl h2
      · exact Or.inr ⟨h2, h3 ▸ List.mem_cons_self _ _⟩
    · exact Or.inr ⟨h1, List.mem_cons_of_mem _ h2⟩

theorem mem_childrenOf_input (r : Reactor T) (k : Nat) (x : CellId)
    (h : x ∈ r.childrenOf (.input k)) : ∃ c, r.inputs[k]? = some c ∧ x ∈ c.children := by
  simp only [Reactor.childrenOf] at h
  cases hk : r.inputs[k]? with
  | none => rw [hk] at h; simp at h
  | some c =>
    rw [hk] at h
    exact ⟨c, rfl, by simpa using h⟩

theorem mem_childrenOf_compute (r : Reactor T) (k : Nat) (x : CellId)
    (h : x ∈ r.childrenOf (.compute k)) : ∃ c, r.compute[k]? = some c ∧ x ∈ c.children := by
  simp only [Reactor.childrenOf] at h
  cases hk : r.compute[k]? with
  | none => rw [hk] at h; simp at h
  | some c =>
    rw [hk] at h
    exact ⟨c, rfl, by simpa using h⟩

theorem childrenOf_input_eq (r : Reactor T) (k : Nat) (c : InputCell T)
    (h : r.inputs[k]? = some c) : r.childrenOf (.input k) = c.children := by
  simp [Reactor.childrenOf, h]

theorem childrenOf_compute_eq (r : Reactor T) (k : Nat) (c : ComputeCell T)
    (h : r.compute[k]? = some c) : r.childrenOf (.compute k) = c.children := by
  simp [Reactor.childrenOf, h]

theorem childrenOf_append_compute (r : Reactor T) (c : ComputeCell T) (p : CellId)
    (hp : (r.value p).isSome) :
    ({ r with compute := r.compute ++ [c] } : Reactor T).childrenOf p =
      r.childrenOf p := by
  cases p with
  | input k => rfl
  | compute k =>
    have hk : k < r.compute.length := by
      simp only [Reactor.value] at hp
      rw [Option.isSome_map'] at hp
      exact getElem?_isSome_iff.mp hp
    simp only [Reactor.childrenOf]
    rw [List.getElem?_append, if_pos hk]

theorem append_compute_lookup_cases {r : Reactor T} {c : ComputeCell T} {i0 : Nat}
    {c1 : ComputeCell T}
    (h : ({ r with compute := r.compute ++ [c] } : Reactor T).compute[i0]? = some c1) :
    (i0 < r.compute.length ∧ r.compute[i0]? = some c1) ∨
    (i0 = r.compute.length ∧ c1 = c) := by
  rcases getElem?_append_cases h with ⟨hlt, hl⟩ | ⟨hge, hl⟩
  · exact Or.inl ⟨hlt, hl⟩
  · right
    cases hkl : i0 - r.compute.length with
    | zero =>
      rw [hkl] at hl
      injection hl with h'
      exact ⟨by omega, h'.symm⟩
    | succ m => rw [hkl] at hl; simp at hl

theorem create_compute_ok_fst (r : Reactor T) (deps : List CellId) (f : List T → T)
    (vs : List T) (hcv : r.collectValues deps = .ok vs) :
    (r.create_compute deps f).1 =
      deps.foldl (fun acc d => acc.addChild d (.compute r.compute.length))
        { r with compute := r.compute ++ [⟨f vs, [], deps, [], f⟩] } := by
  simp only [Reactor.create_compute, hcv]


theorem wf_create_compute (r : Reactor T) (deps : List CellId) (f : List T → T)
    (hw : Wf r) : Wf (r.create_compute deps f).1 := by
  cases hcv : r.collectValues deps with
  | error d =>
    simp only [Reactor.create_compute, hcv]
    exact hw
  | ok vs =>
    rw [create_compute_ok_fst r deps f vs hcv]
    have hdep : ∀ d ∈ deps, (r.value d).isSome :=
      parentValues_mem_isSome r deps vs ((collectValues_ok_iff r deps vs).mp hcv)
    have hdep1 : ∀ d ∈ deps,
        (({ r with compute := r.compute ++ [⟨f vs, [], deps, [], f⟩] } : Reactor T).value
          d).isSome := by
      intro d hd
      rw [value_append_compute r _ d (hdep d hd)]
      exact hdep d hd
    have hdepBound : ∀ d ∈ deps,
        (match d with
         | CellId.input k => k < r.inputs.length
         | CellId.compute k => k < r.compute.length) := by
      intro d hd
      have hv := hdep d hd
      cases d with
      | input k =>
        simp only [Reactor.value] at hv
        rw [Option.isSome_map'] at hv
        exact getElem?_isSome_iff.mp hv
      | compute k =>
        simp only [Reactor.value] at hv
        rw [Option.isSome_map'] at hv
        exact getElem?_isSome_iff.mp hv
    constructor
    · intro k c hk x hx
      have hx' := hx
      rw [← childrenOf_input_eq _ k c hk] at hx'
      rcases fold_addChild_childrenOf_sub2 _ _ _ _ _ hx' with h1 | ⟨h1, _⟩
      · rcases mem_childrenOf_input r k x h1 with ⟨c', hc', hx2⟩
        rcases hw.inputChildren k c' hc' x hx2 with ⟨j, hxj, hj⟩
        refine ⟨j, hxj, ?_⟩
        rw [fold_addChild_compute_length]
        simp only [List.length_append, List.length_singleton]
        omega
      · refine ⟨r.compute.length, h1, ?_⟩
        rw [fold_addChild_compute_length]
        simp only [List.length_append, List.length_singleton]
        omega
    · intro i0 c0 h0 x hx
      have hx' := hx
      rw [← childrenOf_compute_eq _ i0 c0 h0] at hx'
      rcases fold_addChild_childrenOf_sub2 _ _ _ _ _ hx' with h1 | ⟨h1, h2⟩
      · rcases mem_childrenOf_compute _ i0 x h1 with ⟨c1, hc1, hx2⟩
        rcases append_compute_lookup_cases hc1 with ⟨hlt, hr⟩ | ⟨heq, hcnew⟩
        · rcases hw.computeChildren i0 c1 hr x hx2 with ⟨j, hxj, hij, hj⟩
          refine ⟨j, hxj, hij, ?_⟩
          rw [fold_addChild_compute_length]
          simp only [List.length_append, List.length_singleton]
          omega
        · subst hcnew
          simp at hx2
      · have hb := hdepBound _ h2
        refine ⟨r.compute.length, h1, hb, ?_⟩
        rw [fold_addChild_compute_length]
        simp only [List.length_append, List.length_singleton]
        omega
    · intro i0 c0 h0 p hp
      rcases map_eq_some_transfer (fold_addChild_core _ deps _ i0) h0 with ⟨c1, h1, hcore⟩
      obtain ⟨hval, hpar, hcb, hf⟩ := cellCore_eq_iff hcore
      rcases append_compute_lookup_cases h1 with ⟨hlt, hr⟩ | ⟨heq, hcnew⟩
      · have hp1 : p ∈ c1.parents := by rw [hpar] at hp; exact hp
        have hb := hw.parentsOk i0 c1 hr p hp1
        cases p with
        | input k =>
          have hb' : k < r.inputs.length := hb
          show k < _
          rw [fold_addChild_inputs_length]
          exact hb'
        | compute k => exact hb
      · have hp' : p ∈ deps := by rw [hpar] at hp; subst hcnew; exact hp
        have hb := hdepBound p hp'
        cases p with
        | input k =>
          have hb' : k < r.inputs.length := hb
          show k < _
          rw [fold_addChild_inputs_length]
          exact hb'
        | compute k =>
          have hb' : k < r.compute.length := hb
          omega
    · intro i0 c0 h0 p hp
      rcases map_eq_some_transfer (fold_addChild_core _ deps _ i0) h0 with ⟨c1, h1, hcore⟩
      obtain ⟨hval, hpar, hcb, hf⟩ := cellCore_eq_iff hcore
      have hp1 : p ∈ c1.parents := by rw [hpar] at hp; exact hp
      rcases append_compute_lookup_cases h1 with ⟨hlt, hr⟩ | ⟨heq, hcnew⟩
      · have hm := hw.mirror i0 c1 hr p hp1
        have hres := parents_resolve r hw i0 c1 hr p hp1
        have hm1 : CellId.compute i0 ∈
            ({ r with compute := r.compute ++ [⟨f vs, [], deps, [], f⟩] } :
              Reactor T).childrenOf p := by
          rw [childrenOf_append_compute r _ p hres]
          exact hm
        exact fold_addChild_childrenOf_mono _ _ _ _ _ hm1
      · have hp' : p ∈ deps := by subst hcnew; exact hp1
        subst heq
        exact fold_addChild_mem _ deps _ hdep1 p hp'

theorem settled_create_compute (r : Reactor T) (deps : List CellId) (f : List T → T)
    (hw : Wf r) (hs : r.Settled) : (r.create_compute deps f).1.Settled := by
  cases hcv : r.collectValues deps with
  | error d =>
    simp only [Reactor.create_compute, hcv]
    exact hs
  | ok vs =>
    have hpvs : r.parentValues deps = some vs := (collectValues_ok_iff r deps vs).mp hcv
    have hdep : ∀ d ∈ deps, (r.value d).isSome := parentValues_mem_isSome r deps vs hpvs
    rw [create_compute_ok_fst r deps f vs hcv]
    intro i0 c0 h0
    rcases map_eq_some_transfer (fold_addChild_core _ deps _ i0) h0 with ⟨c1, h1, hcore⟩
    obtain ⟨hval, hpar, hcb, hf⟩ := cellCore_eq_iff hcore
    rcases append_compute_lookup_cases h1 with ⟨hlt, hr⟩ | ⟨heq, hcnew⟩
    · rcases hs i0 c1 hr with ⟨ws, hws, hv⟩
      refine ⟨ws, ?_, ?_⟩
      · rw [hpar]
        rw [parentValues_congr _ r c1.parents (fun p hp => by
          rw [fold_addChild_value,
            value_append_compute r _ p (parents_resolve r hw i0 c1 hr p hp)])]
        exact hws
      · rw [hval, hf]
        exact hv
    · refine ⟨vs, ?_, ?_⟩
      · rw [hpar]
        have hpd : c1.parents = deps := by subst hcnew; rfl
        rw [hpd]
        rw [parentValues_congr _ r deps (fun p hp => by
          rw [fold_addChild_value, value_append_compute r _ p (hdep p hp)])]
        exact hpvs
      · rw [hval, hf]
        subst hcnew
        rfl

theorem wf_new : Wf (Reactor.new T) := by
  constructor <;> (intro i c hc; simp [Reactor.new] at hc)

theorem settled_new : (Reactor.new T).Settled := by
  intro i c hc
  simp [Reactor.new] at hc

theorem reachable_wf_settled (r : Reactor T) (h : Reachable r) : Wf r ∧ r.Settled := by
  induction h with
  | base => exact ⟨wf_new, settled_new⟩
  | crinput r v hr ih =>
    exact ⟨wf_create_input r v ih.1, settled_create_input r v ih.1 ih.2⟩
  | crcompute r deps f hr ih =>
    exact ⟨wf_create_compute r deps f ih.1, settled_create_compute r deps f ih.1 ih.2⟩
  | setv r fuel i v r' tr b hr hset ih =>
    exact ⟨set_value_wf fuel r i v r' tr b ih.1 hset,
      set_value_settles fuel r i v r' tr b ih.1 ih.2 hset⟩

/-- C2: after any completed `set_value` on a reactor reachable through the
public API, every compute cell's stored value equals its function applied
to the current values of its dependencies in declared order — the graph is
left fully settled. -/
theorem C2_set_value_settles (r : Reactor T) (hr : Reachable r) (fuel i : Nat) (v : T)
    (r' : Reactor T) (tr : List (Event T)) (b : Bool)
    (h : r.set_value fuel i v = some (r', tr, b)) : r'.Settled :=
  set_value_settles fuel r i v r' tr b (reachable_wf_settled r hr).1
    (reachable_wf_settled r hr).2 h

/-- C2 witness: writing `7` into the single input of `tinyR` leaves a
settled reactor. -/
theorem C2_set_value_settles_witness : tinyR7.Settled :=
  C2_set_value_settles tinyR (Reachable.crinput (Reactor.new Int) 5 Reachable.base)
    1 0 7 tinyR7 [] true rfl

/-- C6: from a reachable state, repeating `set_value` with the same value on
the same existing input changes nothing and fires no callback: the second
call returns the very same reactor and an empty invocation trace. -/
theorem C6_set_value_idempotent (r : Reactor T) (hr : Reachable r) (i : Nat)
    (c : InputCell T) (hc : r.inputs[i]? = some c) (v : T) (f1 f2 : Nat)
    (r1 : Reactor T) (tr1 : List (Event T)) (b1 : Bool)
    (r2 : Reactor T) (tr2 : List (Event T)) (b2 : Bool)
    (h1 : r.set_value f1 i v = some (r1, tr1, b1))
    (h2 : r1.set_value f2 i v = some (r2, tr2, b2)) :
    r2 = r1 ∧ tr2 = [] := by
  obtain ⟨hw, hs⟩ := reachable_wf_settled r hr
  have hs1 : r1.Settled := set_value_settles f1 r i v r1 tr1 b1 hw hs h1
  have hc1 : r1.inputs[i]? = some { c with val := v } := by
    rw [set_value_inputs f1 r i v c r1 tr1 b1 hc h1]
    exact List.getElem?_set_self (getElem?_some_lt hc)
  simp only [Reactor.set_value, hc1] at h2
  have hr1eq : ({ r1 with inputs := r1.inputs.set i { c with val := v } } : Reactor T) =
      r1 := by
    rw [list_set_of_getElem? hc1]
  rw [hr1eq] at h2
  split at h2
  · cases h2
  · cases h2
    rename_i heq
    exact update_noop f2 r1 _ _ _ hs1 heq

/-- C6 witness: writing `7` into `tinyR7`'s input a second time returns the
same reactor with an empty trace. -/
theorem C6_set_value_idempotent_witness : tinyR7 = tinyR7 ∧ ([] : List (Event Int)) = [] :=
  C6_set_value_idempotent tinyR (Reachable.crinput (Reactor.new Int) 5 Reachable.base)
    0 ⟨5, []⟩ rfl 7 1 1 tinyR7 [] true tinyR7 [] true rfl rfl

theorem le_foldr_max (l : List Nat) (x : Nat) (h : x ∈ l) : x ≤ l.foldr max 0 := by
  induction l with
  | nil => cases h
  | cons a as ih =>
    rcases List.mem_cons.mp h with h1 | h1
    · subst h1
      exact Nat.le_max_left _ _
    · exact le_trans (ih h1) (Nat.le_max_right _ _)

theorem branchBound_children (r : Reactor T) (i : Nat) (cell : ComputeCell T)
    (hc : r.compute[i]? = some cell) : cell.children.length ≤ branchBound r :=
  le_foldr_max _ _ (List.mem_map_of_mem _ (List.getElem?_mem hc))

theorem branchBound_set_val (r : Reactor T) (i : Nat) (cell : ComputeCell T) (nv : T)
    (hc : r.compute[i]? = some cell) :
    branchBound ({ r with compute := r.compute.set i { cell with val := nv } } :
      Reactor T) = branchBound r := by
  unfold branchBound
  congr 1
  rw [List.map_set]
  apply list_set_of_getElem?
  rw [List.getElem?_map, hc]
  rfl

theorem wlWeight_append (K n : Nat) (a b : List CellId) :
    wlWeight K n (a ++ b) = wlWeight K n a + wlWeight K n b := by
  simp [wlWeight, List.sum_append]

theorem wlWeight_cons (K n : Nat) (x : CellId) (b : List CellId) :
    wlWeight K n (x :: b) = cellWeight K n x + wlWeight K n b := by
  simp [wlWeight]

theorem wlWeight_children_lt (K n i : Nat) (children rest : List CellId)
    (hK : children.length < K) (hi : i < n)
    (hch : ∀ x ∈ children, ∃ j, x = CellId.compute j ∧ i < j ∧ j < n) :
    wlWeight K n (children ++ rest) < wlWeight K n (CellId.compute i :: rest) := by
  rw [wlWeight_append, wlWeight_cons]
  have hK1 : 1 ≤ K := by omega
  have hbound : wlWeight K n children ≤ children.length * K ^ (n - i - 1) := by
    have hb : ∀ w ∈ children.map (cellWeight K n), w ≤ K ^ (n - i - 1) := by
      intro w hw
      rcases List.mem_map.mp hw with ⟨x, hx, rfl⟩
      rcases hch x hx with ⟨j, rfl, hij, hjn⟩
      simp only [cellWeight]
      exact Nat.pow_le_pow_right hK1 (by omega)
    have hsum := List.sum_le_card_nsmul _ _ hb
    simpa [wlWeight, smul_eq_mul, List.length_map] using hsum
  have hpos : 0 < K ^ (n - i - 1) := pow_pos (by omega) _
  have hlt : children.length * K ^ (n - i - 1) < K * K ^ (n - i - 1) :=
    (mul_lt_mul_right hpos).mpr hK
  have hKe : K * K ^ (n - i - 1) = K ^ (n - i) := by
    rw [← pow_succ']
    congr 1
    omega
  have hcw : cellWeight K n (CellId.compute i) = K ^ (n - i) := rfl
  rw [hcw]
  omega

theorem update_total (fuel : Nat) : ∀ (r : Reactor T) (wl : List CellId), Wf r →
    (∀ x ∈ wl, ∃ j, x = CellId.compute j ∧ j < r.compute.length) →
    wlWeight (branchBound r + 1) r.compute.length wl < fuel →
    ∃ out, Reactor.update_compute_cell_value fuel r wl = some out := by
  induction fuel with
  | zero => exact fun r wl _ _ hlt => absurd hlt (Nat.not_lt_zero _)
  | succ fuel ih =>
    intro r wl hw hwl hlt
    cases wl with
    | nil => exact ⟨(r, []), by simp [Reactor.update_compute_cell_value]⟩
    | cons id rest =>
      obtain ⟨j, rfl, hjn⟩ := hwl id (List.mem_cons_self _ _)
      obtain ⟨cell, hcell⟩ := Option.isSome_iff_exists.mp (getElem?_isSome_iff.mpr hjn)
      obtain ⟨pv, hpv⟩ := parentValues_total r cell.parents
        (parents_resolve r hw j cell hcell)
      have hchildren := hw.computeChildren j cell hcell
      have hKlen : cell.children.length < branchBound r + 1 :=
        Nat.lt_succ_of_le (branchBound_children r j cell hcell)
      have hdec := wlWeight_children_lt (branchBound r + 1) r.compute.length j
        cell.children rest hKlen hjn hchildren
      have hwl2 : ∀ x ∈ cell.children ++ rest,
          ∃ j0, x = CellId.compute j0 ∧ j0 < r.compute.length := by
        intro x hx
        rcases List.mem_append.mp hx with h1 | h1
        · rcases hchildren x h1 with ⟨j0, hxe, _, hj0⟩
          exact ⟨j0, hxe, hj0⟩
        · exact hwl x (List.mem_cons_of_mem _ h1)
      by_cases hval : cell.func pv = cell.val
      · obtain ⟨out, hout⟩ := ih r (cell.children ++ rest) hw hwl2 (by omega)
        refine ⟨out, ?_⟩
        simp only [Reactor.update_compute_cell_value, hcell, hpv]
        rw [if_pos hval]
        exact hout
      · have hwS := wf_set_compute_val r j cell (cell.func pv) hcell hw
        have hlenS : ({ r with compute := r.compute.set j { cell with val := cell.func pv } } :
            Reactor T).compute.length = r.compute.length := by
          simp [List.length_set]
        have hbbS := branchBound_set_val r j cell (cell.func pv) hcell
        obtain ⟨out, hout⟩ := ih
          { r with compute := r.compute.set j { cell with val := cell.func pv } }
          (cell.children ++ rest) hwS
          (by rw [hlenS]; exact hwl2)
          (by rw [hlenS, hbbS]; omega)
        obtain ⟨r2, tr2⟩ := out
        refine ⟨(r2, cell.callbacks.map (fun cb => ⟨j, cb, cell.func pv⟩) ++ tr2), ?_⟩
        simp only [Reactor.update_compute_cell_value, hcell, hpv]
        rw [if_neg hval, hout]

/-- C10: for every reactor reachable through the public API, the recursive
propagation started by `set_value` terminates: some finite fuel makes the
defunctionalised recursion return a result instead of exhausting — the
dependent edges always point to later-created compute cells, bounding the
walk. -/
theorem C10_propagation_terminates (r : Reactor T) (hr : Reachable r) (i : Nat) (v : T) :
    ∃ fuel out, r.set_value fuel i v = some out := by
  obtain ⟨hw, _⟩ := reachable_wf_settled r hr
  cases hc : r.inputs[i]? with
  | none => exact ⟨0, (r, [], false), by simp [Reactor.set_value, hc]⟩
  | some c =>
    have hwW := wf_set_input_val r i c v hc hw
    obtain ⟨out, hout⟩ := update_total
      (wlWeight (branchBound ({ r with inputs := r.inputs.set i { c with val := v } } :
          Reactor T) + 1)
        ({ r with inputs := r.inputs.set i { c with val := v } } : Reactor T).compute.length
        c.children + 1)
      { r with inputs := r.inputs.set i { c with val := v } } c.children hwW
      (fun x hx => hw.inputChildren i c hc x hx) (by omega)
    obtain ⟨r2, tr2⟩ := out
    refine ⟨wlWeight (branchBound ({ r with inputs := r.inputs.set i { c with val := v } } :
          Reactor T) + 1)
        ({ r with inputs := r.inputs.set i { c with val := v } } : Reactor T).compute.length
        c.children + 1, (r2, tr2, true), ?_⟩
    simp only [Reactor.set_value, hc]
    rw [hout]

/-- C10 witness: a concrete reachable reactor on which `set_value`
terminates. -/
theorem C10_propagation_terminates_witness : ∃ fuel out, tinyR.set_value fuel 0 9 = some out :=
  C10_propagation_terminates tinyR (Reachable.crinput (Reactor.new Int) 5 Reachable.base) 0 9
